import Mathlib

/-!
Verification of the distribution-cycle engine of the `freemoneydev` worker
(`worker/bananaWorker.ts`, first revision) and its ops recorder
(`src/app/api/admin/ops/route.ts`, `src/lib/state.ts`).

The shallow embedding below translates the relevant TypeScript into Lean:

* the largest-remainder allocation computed inline in `snapshotAndDistribute`
  (lines 461-483), including the JS stable in-place `sort` on remainders and
  the one-unit top-up loop;
* the eligibility filtering and early returns of `snapshotAndDistribute`
  (lines 430-483);
* the adaptive batched submitter `sendAirdropsAdaptiveBase` (lines 343-416),
  with the external transaction outcomes supplied as an explicit schedule of
  classified responses (the code classifies error messages with
  `isTxTooLarge` / `looksRetryableMessage`; the schedule entries are the
  classification outcomes) and an explicit fuel bound since the source loops
  are unbounded;
* the scheduler loop `loop` / `nextTimes` (lines 422-428, 515-541), as a
  transition system on the fired-set, with each tick carrying the timestamp
  observed by `nextTimes()` and the timestamp observed by `new Date()`;
* the OPS recorder `POST` handler with its cycle-id deduplication.

BigInt amounts are embedded as `Nat` (all on-chain amounts in the worker are
non-negative).  The recorder's JS numbers are embedded as `Rat`; the claims
about it concern control flow (counted once vs twice), not float rounding.
-/

namespace Banana

/-! ## Data model: holders, shares, allocation rows -/

/-- A holder snapshot entry as returned by `getHoldersAllBase`:
`{ wallet, amountBase: bigint }`. -/
structure Holder where
  wallet : String
  amountBase : Nat
deriving DecidableEq

/-- Intermediate allocation share, mirroring
`{ wallet: h.wallet, base: q, rem: r }` from `snapshotAndDistribute`. -/
structure Share where
  wallet : String
  base : Nat
  rem : Nat
deriving DecidableEq

/-- `AirdropRowBase = { wallet: string; amountBase: bigint }`. -/
structure AirdropRowBase where
  wallet : String
  amountBase : Nat
deriving DecidableEq

/-! ## The largest-remainder allocation (snapshotAndDistribute, lines 461-483)

`shares.sort((a, b) => (b.rem > a.rem ? 1 : b.rem < a.rem ? -1 : 0))` is the
JS built-in stable sort with a descending-by-`rem` comparator; since ES2019
`Array.prototype.sort` is stable, its result is the unique stable descending
order, which we realise by stable insertion sort. -/

/-- Insert a share into a list sorted descending by `rem`, keeping it after
every earlier element with greater-or-equal remainder (stability). -/
def insertByRemDesc (s : Share) : List Share → List Share
  | [] => [s]
  | t :: ts => if t.rem ≤ s.rem then s :: t :: ts else t :: insertByRemDesc s ts

/-- Stable sort of shares, descending by `rem` (ties keep input order). -/
def sortByRemDesc : List Share → List Share
  | [] => []
  | s :: ss => insertByRemDesc s (sortByRemDesc ss)

/-- The shortfall loop
`for (let i = 0; add > 0n && i < shares.length; i++) { shares[i].base += 1n; add -= 1n; }`:
add one base unit to each of the first `add` shares. -/
def topUp : Nat → List Share → List Share
  | 0, l => l
  | _, [] => []
  | a + 1, s :: l => { s with base := s.base + 1 } :: topUp a l

/-- The allocation computed inline in `snapshotAndDistribute` (lines 461-483):
exact integer quotient and remainder per holder, shortfall distributed to the
largest remainders (stable sort), zero rows dropped. -/
def allocate (toSendBase : Nat) (eligible : List Holder) : List AirdropRowBase :=
  let totalEligibleBase := (eligible.map (·.amountBase)).sum
  let shares := eligible.map (fun h =>
    { wallet := h.wallet
      base := toSendBase * h.amountBase / totalEligibleBase
      rem := toSendBase * h.amountBase % totalEligibleBase : Share })
  let sumBase := (shares.map (·.base)).sum
  let shares2 :=
    if sumBase < toSendBase then
      topUp (toSendBase - sumBase) (sortByRemDesc shares)
    else shares
  (shares2.filter (fun s => 0 < s.base)).map
    (fun s => { wallet := s.wallet, amountBase := s.base })

/-- The pure planning core of `snapshotAndDistribute` (lines 430-483): drops
out-of-band holders and the dev wallet, applies the 90% rule, and returns the
allocation rows; every early `return` in the source yields the empty plan. -/
def snapshotAndDistributePlan (holders : List Holder) (dev : String)
    (minHolderBalance maxHolderBalance trackedDec poolBase : Nat) :
    List AirdropRowBase :=
  if holders = [] then [] else
  let minBase := minHolderBalance * 10 ^ trackedDec
  let maxBase := maxHolderBalance * 10 ^ trackedDec
  let eligible := holders.filter (fun h =>
    h.wallet ≠ dev ∧ minBase ≤ h.amountBase ∧ h.amountBase ≤ maxBase)
  if eligible = [] then [] else
  let toSendBase : Nat := poolBase * 90 / 100
  if toSendBase ≤ 0 then [] else
  let totalEligibleBase : Nat := (eligible.map (·.amountBase)).sum
  if totalEligibleBase ≤ 0 then [] else
  allocate toSendBase eligible

/-- Total amount allocated to a given wallet in a row list. -/
def amountTo (rows : List AirdropRowBase) (w : String) : Nat :=
  ((rows.filter (fun r => r.wallet = w)).map (·.amountBase)).sum

/-- Total base amount held by a wallet in an intermediate share list. -/
def sumBaseTo (w : String) (l : List Share) : Nat :=
  ((l.filter (fun s => s.wallet = w)).map (·.base)).sum

/-! ## The batched submitter (`sendAirdropsAdaptiveBase`, lines 343-416)

Each submission attempt (`sendAirdropBatch`) either confirms or throws; the
code classifies a thrown error with `isTxTooLarge` (lines 319-322) and
`looksRetryableMessage` (lines 81-83).  The embedding feeds the submitter an
explicit schedule of classified outcomes, one consumed per submission
attempt, and uses fuel because the source loops are unbounded (a permanently
failing batch is re-queued and re-tried forever).  Parsing of recipient
addresses (`new PublicKey(r.wallet)`) is assumed to succeed; amounts `≤ 0`
are skipped exactly as in the source. -/

/-- Classified outcome of one `sendAirdropBatch` attempt. -/
inductive TxOutcome
  | success
  /-- error with `isTxTooLarge(e)` true -/
  | tooLarge
  /-- error with `looksRetryableMessage(msg)` true -/
  | retryable
  /-- any other error -/
  | other
deriving DecidableEq

/-- `groupSize = Math.max(1, Math.floor(groupSize / 2))` (line 383). -/
def shrinkGroupSize (groupSize : Nat) : Nat := max 1 (groupSize / 2)

/-- `groupSize = Math.min(groupSize + 1, AIRDROP_GROUP_MAX ?? 12)` (line 378). -/
def growGroupSize (groupSize : Nat) : Nat := min (groupSize + 1) 12

/-- The batched phase (lines 350-392).  Returns the rows whose transfer
instructions were confirmed, in confirmation order, plus the unconsumed
outcome schedule.  One step of the recursion is one trip through the inner
`for (;;)` body: on success the group leaves the queue and the width grows;
on a non-success the queue is restored to `group ++ rest` (which equals the
original queue) and the width shrinks only in the oversize case; the
`ixs.length <= 1` guard drops a group with no positive amounts without
consuming an outcome. -/
def batchedPhase : Nat → List AirdropRowBase → Nat → List TxOutcome →
    List AirdropRowBase × List TxOutcome
  | 0, _, _, sched => ([], sched)
  | _ + 1, [], _, sched => ([], sched)
  | fuel + 1, queue@(_ :: _), groupSize, sched =>
    let group := queue.take groupSize
    let rest := queue.drop groupSize
    let sendable := group.filter (fun r => 0 < r.amountBase)
    if sendable.isEmpty then batchedPhase fuel rest groupSize sched
    else
      match sched with
      | [] => ([], [])
      | outcome :: sched' =>
        match outcome with
        | .success =>
          let next := batchedPhase fuel rest (growGroupSize groupSize) sched'
          (sendable ++ next.1, next.2)
        | .tooLarge =>
          if 1 < groupSize then
            batchedPhase fuel queue (shrinkGroupSize groupSize) sched'
          else
            batchedPhase fuel queue groupSize sched'
        | .retryable => batchedPhase fuel queue groupSize sched'
        | .other => batchedPhase fuel queue groupSize sched'

/-- The trailing singles phase (lines 394-415): for every row of the
original `rows` list with a positive amount, retry a single-transfer
transaction until it confirms (every error class just sleeps and retries). -/
def singlesPhase : Nat → List AirdropRowBase → List TxOutcome →
    List AirdropRowBase
  | 0, _, _ => []
  | _ + 1, [], _ => []
  | fuel + 1, r :: rs, sched =>
    if r.amountBase ≤ 0 then singlesPhase fuel rs sched
    else
      match sched with
      | [] => []
      | .success :: sched' => r :: singlesPhase fuel rs sched'
      | _ :: sched' => singlesPhase fuel (r :: rs) sched'

/-- `sendAirdropsAdaptiveBase` (lines 343-416): the batched phase over a copy
of `rows`, then the singles phase over `rows`.  The result lists every
confirmed transfer, one entry per executed `createTransferCheckedInstruction`
row. -/
def sendAirdropsAdaptiveBase (fuel : Nat) (rows : List AirdropRowBase)
    (groupSize : Nat) (sched : List TxOutcome) : List AirdropRowBase :=
  let batched := batchedPhase fuel rows groupSize sched
  batched.1 ++ singlesPhase fuel rows batched.2

/-- Number of confirmed transfers executed for a wallet. -/
def transfersTo (transfers : List AirdropRowBase) (w : String) : Nat :=
  (transfers.filter (fun r => r.wallet = w)).length

/-! ## The cycle scheduler (`nextTimes` lines 422-428, `loop` lines 515-541)

A tick of the scheduler loop observes two timestamps: `t0`, read by
`nextTimes()` via `floorCycleStart`, and `t1`, read immediately after by
`new Date()`; `t0 ≤ t1` and successive ticks observe non-decreasing clocks.
The cycle id is the window start `floor(t0 / W) * W` (stringified in the
source; the numeric value is kept here).  The fired-set holds
`(cycleId, stage)` keys, the stage offsets are 0s / 30s / 55s
(`start`, `tPlus30`, `tPlus60Minus5`), and the set is cleared when
`now >= end`. -/

/-- The three scheduled stages, keyed `":claim"`, `":swap"`, `":dist"`. -/
inductive Stage
  | claim
  | swap
  | dist
deriving DecidableEq

/-- A fired-set entry `id + ":stage"`. -/
abbrev FiredKey := Nat × Stage

/-- `CYCLE_MINUTES * 60_000` with `CYCLE_MINUTES = 1`. -/
def cycleWidth : Nat := 60000

/-- `floorCycleStart` (lines 418-421): the window start for time `t`;
also the numeric cycle id. -/
def floorCycleStart (t : Nat) : Nat := t / cycleWidth * cycleWidth

/-- One iteration of the `for (;;)` body of `loop` (lines 518-540).
Returns the fired-set after the tick and the stage invocations the tick
performed, in program order. -/
def loopTick (fired : List FiredKey) (t0 t1 : Nat) :
    List FiredKey × List FiredKey :=
  let id := floorCycleStart t0
  let events : List FiredKey :=
    (if (id, Stage.claim) ∉ fired ∧ id ≤ t1 then [(id, Stage.claim)] else []) ++
    (if (id, Stage.swap) ∉ fired ∧ id + 30000 ≤ t1 then [(id, Stage.swap)] else []) ++
    (if (id, Stage.dist) ∉ fired ∧ id + 55000 ≤ t1 then [(id, Stage.dist)] else [])
  let fired' := fired ++ events
  (if id + 60000 ≤ t1 then [] else fired', events)

/-- Run the loop over a finite list of tick timestamp pairs, collecting all
stage invocations. -/
def loopRun (fired : List FiredKey) : List (Nat × Nat) →
    List FiredKey × List FiredKey
  | [] => (fired, [])
  | (t0, t1) :: ticks =>
    let step := loopTick fired t0 t1
    let next := loopRun step.1 ticks
    (next.1, step.2 ++ next.2)

/-- Tick timestamps are well-formed from lower bound `t`: within a tick
`nextTimes()` reads the clock no earlier than `t` and no later than
`new Date()`, and the clock never goes backwards between ticks. -/
def TicksMonotone : Nat → List (Nat × Nat) → Prop
  | _, [] => True
  | t, (t0, t1) :: ticks => t ≤ t0 ∧ t0 ≤ t1 ∧ TicksMonotone t1 ticks

/-! ## The OPS recorder (`src/app/api/admin/ops/route.ts`, `src/lib/state.ts`)

The worker `POST`s `{ lastClaim?, lastSwap?, lastAirdrop? }`; the route
mutates the `OPS` singleton.  JS numbers are embedded as `Rat`; the
JS-truthiness of `clean.cycleId` makes the empty string behave like a
missing cycle id. -/

/-- `TxRef` from `src/lib/state.ts`. -/
structure TxRef where
  /-- the `at` ISO-timestamp field (`at` is a Lean keyword) -/
  atTime : String
  amount : Rat
  tx : Option String
deriving DecidableEq

/-- `AirdropRef` from `src/lib/state.ts`. -/
structure AirdropRef where
  /-- the `at` ISO-timestamp field (`at` is a Lean keyword) -/
  atTime : String
  totalSentUi : Rat
  count : Option Nat
  cycleId : Option String
deriving DecidableEq

/-- `OpsState` from `src/lib/state.ts`. -/
structure OpsState where
  lastClaim : Option TxRef
  lastSwap : Option TxRef
  lastAirdrop : Option AirdropRef
  totalAirdroppedUi : Rat
deriving DecidableEq

/-- `!!(OPS.lastAirdrop && clean.cycleId && OPS.lastAirdrop.cycleId === clean.cycleId)`
from the route's `POST` handler; `clean.cycleId` is JS-falsy when absent or
empty. -/
def alreadyCounted (ops : OpsState) (a : AirdropRef) : Bool :=
  match ops.lastAirdrop, a.cycleId with
  | some prev, some c => c ≠ "" ∧ prev.cycleId = some c
  | _, _ => false

/-- The `lastAirdrop` branch of the `POST` handler: store the incoming
airdrop reference and accumulate `totalAirdroppedUi` unless the cycle id was
already counted. -/
def postLastAirdrop (ops : OpsState) (a : AirdropRef) : OpsState :=
  { ops with
    lastAirdrop := some a
    totalAirdroppedUi :=
      if alreadyCounted ops a then ops.totalAirdroppedUi
      else ops.totalAirdroppedUi + a.totalSentUi }

/-- The full `POST` handler body on a request carrying optional partial
updates (body fields absent or failing their `typeof` guard leave the
corresponding `OPS` field untouched). -/
def postOps (ops : OpsState) (lastClaim lastSwap : Option TxRef)
    (lastAirdrop : Option AirdropRef) : OpsState :=
  let ops1 := match lastClaim with
    | some c => { ops with lastClaim := some c }
    | none => ops
  let ops2 := match lastSwap with
    | some s => { ops1 with lastSwap := some s }
    | none => ops1
  match lastAirdrop with
  | some a => postLastAirdrop ops2 a
  | none => ops2

end Banana

/-! sanity examples (concrete evaluation of the embedding) -/

example : Banana.allocate 10
    [⟨"a", 1⟩, ⟨"b", 1⟩, ⟨"c", 1⟩] =
    [⟨"a", 4⟩, ⟨"b", 3⟩, ⟨"c", 3⟩] := by decide

example : Banana.allocate 10 [⟨"b", 1⟩, ⟨"a", 1⟩, ⟨"c", 1⟩] =
    [⟨"b", 4⟩, ⟨"a", 3⟩, ⟨"c", 3⟩] := by decide

example : Banana.allocate 7 [⟨"a", 2⟩, ⟨"b", 5⟩] = [⟨"a", 2⟩, ⟨"b", 5⟩] := by decide

namespace Banana

/-! ## Helper lemmas about the allocation -/

theorem insertByRemDesc_perm (s : Share) (l : List Share) :
    (insertByRemDesc s l).Perm (s :: l) := by
  induction l with
  | nil => exact List.Perm.refl _
  | cons t ts ih =>
    rw [insertByRemDesc]
    by_cases h : t.rem ≤ s.rem
    · simp [h]
    · simp only [h, if_false]
      exact (ih.cons t).trans (List.Perm.swap s t ts)

theorem sortByRemDesc_perm (l : List Share) : (sortByRemDesc l).Perm l := by
  induction l with
  | nil => exact List.Perm.refl _
  | cons s ss ih =>
    rw [sortByRemDesc]
    exact (insertByRemDesc_perm s (sortByRemDesc ss)).trans (ih.cons s)

theorem topUp_map_base_sum (d : Nat) (l : List Share) (hd : d ≤ l.length) :
    ((topUp d l).map (·.base)).sum = (l.map (·.base)).sum + d := by
  induction d generalizing l with
  | zero => simp [topUp]
  | succ a ih =>
    cases l with
    | nil => simp at hd
    | cons s ss =>
      have := ih ss (by simpa using Nat.le_of_succ_le_succ hd)
      simp [topUp, this]
      omega

theorem filter_pos_map_base_sum (l : List Share) :
    ((l.filter (fun s => 0 < s.base)).map (·.base)).sum
      = (l.map (·.base)).sum := by
  induction l with
  | nil => rfl
  | cons s ss ih =>
    by_cases h : 0 < s.base
    · simp [List.filter, h, ih]
    · have hb : s.base = 0 := by omega
      simp [List.filter, h, ih, hb]

theorem sum_div_add_sum_mod (P T : Nat) (ws : List Nat) :
    T * (ws.map (fun w => P * w / T)).sum + (ws.map (fun w => P * w % T)).sum
      = P * ws.sum := by
  induction ws with
  | nil => simp
  | cons w ws ih =>
    simp only [List.map_cons, List.sum_cons, Nat.mul_add, Nat.left_distrib]
    have hdm := Nat.div_add_mod (P * w) T
    omega

theorem sum_mod_lt (P T : Nat) (hT : 0 < T) (ws : List Nat) (hne : ws ≠ []) :
    (ws.map (fun w => P * w % T)).sum < ws.length * T := by
  induction ws with
  | nil => exact absurd rfl hne
  | cons w ws ih =>
    have hw : P * w % T < T := Nat.mod_lt _ hT
    cases ws with
    | nil => simpa using hw
    | cons v vs =>
      have := ih (by simp)
      simp only [List.map_cons, List.sum_cons, List.length_cons] at *
      calc P * w % T + (P * v % T + (vs.map (fun w => P * w % T)).sum)
          < T + (v :: vs).length * T := by
            simp only [List.length_cons] at this ⊢
            omega
        _ = ((v :: vs).length + 1) * T := by ring

theorem allocate_output_sum (l : List Share) :
    (((l.filter (fun s => 0 < s.base)).map
        (fun s => ({ wallet := s.wallet, amountBase := s.base } : AirdropRowBase))).map
      (·.amountBase)).sum = (l.map (·.base)).sum := by
  rw [List.map_map]
  have : ((·.amountBase) ∘ fun s =>
      ({ wallet := s.wallet, amountBase := s.base } : AirdropRowBase)) =
      (fun s : Share => s.base) := rfl
  rw [this]
  exact filter_pos_map_base_sum l

theorem sortByRemDesc_map_base_sum (l : List Share) :
    ((sortByRemDesc l).map (·.base)).sum = (l.map (·.base)).sum :=
  ((sortByRemDesc_perm l).map (·.base)).sum_eq

/-- C1: Conservation of the distributed amount.  For every pool
`toSendBase ≥ 0` (`Nat`) and every eligible holder list whose total weight
is positive, the allocation computed in `snapshotAndDistribute` — per-holder
floor share, shortfall distributed one unit at a time to the largest
remainders, zero rows dropped — sums to exactly `toSendBase`: no units lost
to rounding and none fabricated. -/
theorem allocate_conservation (P : Nat) (eligible : List Holder)
    (hT : 0 < (eligible.map (·.amountBase)).sum) :
    ((allocate P eligible).map (·.amountBase)).sum = P := by
  have hne : eligible ≠ [] := by
    intro h; subst h; simp at hT
  simp only [allocate]
  rw [allocate_output_sum]
  set ws : List Nat := eligible.map (·.amountBase) with hws
  set T : Nat := ws.sum with hTdef
  set shares : List Share := eligible.map (fun h =>
    ({ wallet := h.wallet
       base := P * h.amountBase / T
       rem := P * h.amountBase % T } : Share)) with hsh
  have hmapbase : shares.map (·.base) = ws.map (fun w => P * w / T) := by
    simp [hsh, hws, List.map_map, Function.comp]
  have hmaprem : shares.map (·.rem) = ws.map (fun w => P * w % T) := by
    simp [hsh, hws, List.map_map, Function.comp]
  set S : Nat := (shares.map (·.base)).sum with hS
  set R : Nat := (shares.map (·.rem)).sum with hR
  have h1 : T * S + R = P * T := by
    rw [hS, hR, hmapbase, hmaprem]
    exact sum_div_add_sum_mod P T ws
  have hcomm : P * T = T * P := Nat.mul_comm P T
  have hSP : S ≤ P := Nat.le_of_mul_le_mul_left (by omega) hT
  by_cases hlt : S < P
  · rw [if_pos hlt]
    have hwsne : ws ≠ [] := by
      rw [hws]
      intro h
      exact hne (List.map_eq_nil_iff.mp h)
    have hRlt : R < eligible.length * T := by
      have := sum_mod_lt P T hT ws hwsne
      rw [hR, hmaprem]
      simpa [hws] using this
    have hd : T * (P - S) + T * S = T * P := by
      rw [← Nat.mul_add]
      congr 1
      omega
    have hdR : T * (P - S) = R := by omega
    have hdn : P - S < eligible.length := by
      have hlt2 : T * (P - S) < T * eligible.length := by
        rw [hdR]
        calc R < eligible.length * T := hRlt
          _ = T * eligible.length := Nat.mul_comm _ _
      exact Nat.lt_of_mul_lt_mul_left hlt2
    have hlen : (sortByRemDesc shares).length = eligible.length := by
      rw [(sortByRemDesc_perm shares).length_eq, hsh, List.length_map]
    rw [topUp_map_base_sum _ _ (by omega), sortByRemDesc_map_base_sum]
    omega
  · rw [if_neg hlt]
    omega

/-- Witness for C1 at a concrete skewed input with `P` not divisible by the
total weight. -/
theorem allocate_conservation_witness :
    0 < (([⟨"a", 1⟩, ⟨"b", 2⟩, ⟨"c", 4⟩] : List Holder).map (·.amountBase)).sum ∧
    ((Banana.allocate 100 [⟨"a", 1⟩, ⟨"b", 2⟩, ⟨"c", 4⟩]).map (·.amountBase)).sum = 100 :=
  ⟨by decide, allocate_conservation 100 [⟨"a", 1⟩, ⟨"b", 2⟩, ⟨"c", 4⟩] (by decide)⟩

theorem sendAirdrops_nil (fuel groupSize : Nat) (sched : List TxOutcome) :
    sendAirdropsAdaptiveBase fuel [] groupSize sched = [] := by
  cases fuel <;> simp [sendAirdropsAdaptiveBase, batchedPhase, singlesPhase]

/-- C9: Empty allocation on empty pool or zero total eligible weight, without
error.  Whenever the pool to send is `≤ 0` or the total eligible weight is
`0` (which covers the no-eligible-holders case), `snapshotAndDistribute`
plans an empty allocation — the embedding is a total function, mirroring the
early `return`s of the source — and handing that plan to the submitter
executes no transfer. -/
theorem snapshotPlan_empty_on_degenerate (holders : List Holder) (dev : String)
    (minHolderBalance maxHolderBalance trackedDec poolBase : Nat)
    (hdeg : poolBase * 90 / 100 ≤ 0 ∨
      (((holders.filter (fun h => h.wallet ≠ dev ∧
          minHolderBalance * 10 ^ trackedDec ≤ h.amountBase ∧
          h.amountBase ≤ maxHolderBalance * 10 ^ trackedDec)).map
        (·.amountBase)).sum ≤ 0)) :
    snapshotAndDistributePlan holders dev minHolderBalance maxHolderBalance
        trackedDec poolBase = [] ∧
    ∀ fuel groupSize sched,
      sendAirdropsAdaptiveBase fuel
        (snapshotAndDistributePlan holders dev minHolderBalance
          maxHolderBalance trackedDec poolBase) groupSize sched = [] := by
  have hplan : snapshotAndDistributePlan holders dev minHolderBalance
      maxHolderBalance trackedDec poolBase = [] := by
    simp only [snapshotAndDistributePlan]
    split_ifs with h1 h2 h3 h4
    · rfl
    · rfl
    · rfl
    · rfl
    · exfalso
      rcases hdeg with h | h
      · exact h3 h
      · exact h4 h
  refine ⟨hplan, fun fuel groupSize sched => ?_⟩
  rw [hplan]
  exact sendAirdrops_nil fuel groupSize sched

/-- Witness for C9: a holder list with an empty pool. -/
theorem snapshotPlan_empty_on_degenerate_witness :
    ((0 : Nat) * 90 / 100 ≤ 0 ∨
      (((([⟨"h1", 500⟩] : List Holder).filter (fun h => h.wallet ≠ "dev" ∧
          1 * 10 ^ 2 ≤ h.amountBase ∧ h.amountBase ≤ 10 * 10 ^ 2)).map
        (·.amountBase)).sum ≤ 0)) ∧
    Banana.snapshotAndDistributePlan [⟨"h1", 500⟩] "dev" 1 10 2 0 = [] ∧
    ∀ fuel groupSize sched,
      Banana.sendAirdropsAdaptiveBase fuel
        (Banana.snapshotAndDistributePlan [⟨"h1", 500⟩] "dev" 1 10 2 0)
        groupSize sched = [] :=
  ⟨Or.inl (by decide),
    snapshotPlan_empty_on_degenerate [⟨"h1", 500⟩] "dev" 1 10 2 0
      (Or.inl (by decide))⟩

theorem topUp_map_wallet (d : Nat) (l : List Share) :
    (topUp d l).map (·.wallet) = l.map (·.wallet) := by
  induction d generalizing l with
  | zero => simp [topUp]
  | succ a ih =>
    cases l with
    | nil => simp [topUp]
    | cons s ss => simp [topUp, ih]

theorem shares2_wallet_mem (P : Nat) (l : List Share) (s : Share)
    (hs : s ∈ (if (l.map (·.base)).sum < P then
      topUp (P - (l.map (·.base)).sum) (sortByRemDesc l) else l)) :
    s.wallet ∈ l.map (·.wallet) := by
  split_ifs at hs with hlt
  · have h1 := List.mem_map_of_mem (fun x : Share => x.wallet) hs
    rw [topUp_map_wallet] at h1
    exact ((sortByRemDesc_perm l).map (fun x => x.wallet)).mem_iff.mp h1
  · exact List.mem_map_of_mem _ hs

theorem allocate_wallet_mem (P : Nat) (eligible : List Holder)
    (row : AirdropRowBase) (hrow : row ∈ allocate P eligible) :
    ∃ h ∈ eligible, h.wallet = row.wallet := by
  simp only [allocate] at hrow
  rw [List.mem_map] at hrow
  obtain ⟨s, hs, hrfl⟩ := hrow
  have hwallet := shares2_wallet_mem P _ s (List.mem_of_mem_filter hs)
  rw [List.map_map, List.mem_map] at hwallet
  obtain ⟨h, hh, hw⟩ := hwallet
  exact ⟨h, hh, by rw [← hrfl]; exact hw⟩

/-- C10: Implicit eligibility filter on the allocation output.  Every row
planned by `snapshotAndDistribute` belongs to a snapshot holder that is not
the distributing dev wallet and whose tracked-mint balance lies in the band
`[MIN_HOLDER_BALANCE * 10^decimals, MAX_HOLDER_BALANCE * 10^decimals]`;
in particular the dev wallet never allocates rewards to itself. -/
theorem plan_rows_eligible (holders : List Holder) (dev : String)
    (minHolderBalance maxHolderBalance trackedDec poolBase : Nat)
    (row : AirdropRowBase)
    (hrow : row ∈ snapshotAndDistributePlan holders dev minHolderBalance
      maxHolderBalance trackedDec poolBase) :
    row.wallet ≠ dev ∧ ∃ h ∈ holders, h.wallet = row.wallet ∧
      minHolderBalance * 10 ^ trackedDec ≤ h.amountBase ∧
      h.amountBase ≤ maxHolderBalance * 10 ^ trackedDec := by
  simp only [snapshotAndDistributePlan] at hrow
  split_ifs at hrow with h1 h2 h3 h4
  all_goals try exact absurd hrow (List.not_mem_nil row)
  obtain ⟨h, hh, hw⟩ := allocate_wallet_mem _ _ _ hrow
  rw [List.mem_filter] at hh
  obtain ⟨hmem, hcond⟩ := hh
  have hcond' : h.wallet ≠ dev ∧
      minHolderBalance * 10 ^ trackedDec ≤ h.amountBase ∧
      h.amountBase ≤ maxHolderBalance * 10 ^ trackedDec := by
    simpa using hcond
  exact ⟨hw ▸ hcond'.1, h, hmem, hw, hcond'.2.1, hcond'.2.2⟩

/-- Witness for C10 at a concrete snapshot. -/
theorem plan_rows_eligible_witness :
    (⟨"h1", 540⟩ : AirdropRowBase).wallet ≠ "dev" ∧
    ∃ h ∈ ([⟨"dev", 600⟩, ⟨"h1", 500⟩, ⟨"whale", 5000⟩] : List Holder),
      h.wallet = (⟨"h1", 540⟩ : AirdropRowBase).wallet ∧
      1 * 10 ^ 2 ≤ h.amountBase ∧ h.amountBase ≤ 10 * 10 ^ 2 :=
  plan_rows_eligible [⟨"dev", 600⟩, ⟨"h1", 500⟩, ⟨"whale", 5000⟩] "dev"
    1 10 2 600 ⟨"h1", 540⟩ (by decide)

/-- C4 counterexample: with equal weights `{1, 1, 1}` and pool `10`, listing
the wallets in the snapshot order `"b", "a", "c"`, the extra unit goes to
`"b"` — the first-listed among the tied remainders — even though `"a"` is the
lowest-sorted wallet identifier.  The JS stable sort keeps ties in input
order; it does not use the wallet identifier as a secondary key. -/
theorem allocate_tie_break_counterexample :
    Banana.allocate 10 [⟨"b", 1⟩, ⟨"a", 1⟩, ⟨"c", 1⟩] =
      [⟨"b", 4⟩, ⟨"a", 3⟩, ⟨"c", 3⟩] ∧
    ("a" : String) < "b" := by
  constructor
  · decide
  · exact String.lt_iff_toList_lt.mpr (by decide)

/-- C4 (amended): with 3 recipients of equal weights and pool `10`, each
receives `3` and exactly one receives `4`; the extra unit goes
deterministically to the *first-listed* recipient among the tied remainders
(JS stable sort keeps input order on ties), so identical inputs — including
their list order — always produce identical allocations. -/
theorem allocate_equal_weights_pool_ten (w1 w2 w3 : String) (c : Nat)
    (hc : 0 < c) :
    Banana.allocate 10 [⟨w1, c⟩, ⟨w2, c⟩, ⟨w3, c⟩] =
      [⟨w1, 4⟩, ⟨w2, 3⟩, ⟨w3, 3⟩] := by
  have h3c : c + (c + c) = 3 * c := by ring
  have hdivc : 10 * c / (c + (c + c)) = 3 := by
    rw [h3c, Nat.mul_div_mul_right _ _ hc]
  have hmodc : 10 * c % (c + (c + c)) = c := by
    rw [h3c, Nat.mul_mod_mul_right]
    norm_num
  simp [allocate, hdivc, hmodc, sortByRemDesc, insertByRemDesc, topUp,
    List.filter]

/-- Witness for the amended C4 at concrete wallets and weight. -/
theorem allocate_equal_weights_pool_ten_witness :
    (0 : Nat) < 2 ∧
    Banana.allocate 10 [⟨"x", 2⟩, ⟨"y", 2⟩, ⟨"z", 2⟩] =
      [⟨"x", 4⟩, ⟨"y", 3⟩, ⟨"z", 3⟩] :=
  ⟨by decide, allocate_equal_weights_pool_ten "x" "y" "z" 2 (by decide)⟩

/-- C2 (code defect, evaluated at the failing input): after the batched
phase has already delivered every row, the trailing singles phase of
`sendAirdropsAdaptiveBase` iterates over the *original* `rows` list again
(line 395: `for (const r of rows)`), so with a single positive row and every
submission confirming, the cycle executes two confirmed transfers of that
row's amount — the recipient is credited twice, not at most once. -/
theorem sendAirdrops_double_credit :
    Banana.sendAirdropsAdaptiveBase 10 [⟨"w", 5⟩] 10
        [TxOutcome.success, TxOutcome.success] =
      [⟨"w", 5⟩, ⟨"w", 5⟩] ∧
    1 < Banana.transfersTo
      (Banana.sendAirdropsAdaptiveBase 10 [⟨"w", 5⟩] 10
        [TxOutcome.success, TxOutcome.success]) "w" := by
  constructor
  · decide
  · decide

/-- C8: Adaptive shrink on an oversize error never loses rows.  Starting at
width 8 with 8 positive rows, an oversize rejection halves the width to
`shrinkGroupSize 8 = 4 ≤ 4`, returns the batch's rows to the front of the
queue, and the subsequent confirmations deliver every original row, in
order, with no loss. -/
theorem batched_shrink_no_loss (r1 r2 r3 r4 r5 r6 r7 r8 : AirdropRowBase)
    (h1 : 0 < r1.amountBase) (h2 : 0 < r2.amountBase)
    (h3 : 0 < r3.amountBase) (h4 : 0 < r4.amountBase)
    (h5 : 0 < r5.amountBase) (h6 : 0 < r6.amountBase)
    (h7 : 0 < r7.amountBase) (h8 : 0 < r8.amountBase) :
    Banana.batchedPhase 20 [r1, r2, r3, r4, r5, r6, r7, r8] 8
        [TxOutcome.tooLarge, TxOutcome.success, TxOutcome.success] =
      ([r1, r2, r3, r4, r5, r6, r7, r8], []) ∧
    Banana.shrinkGroupSize 8 ≤ 4 := by
  constructor
  · simp [batchedPhase, shrinkGroupSize, growGroupSize, List.filter,
      h1, h2, h3, h4, h5, h6, h7, h8]
  · decide

/-- Witness for C8 at eight concrete unit rows. -/
theorem batched_shrink_no_loss_witness :
    ((0 : Nat) < 1) ∧
    (Banana.batchedPhase 20 [⟨"a", 1⟩, ⟨"b", 1⟩, ⟨"c", 1⟩, ⟨"d", 1⟩,
        ⟨"e", 1⟩, ⟨"f", 1⟩, ⟨"g", 1⟩, ⟨"h", 1⟩] 8
        [TxOutcome.tooLarge, TxOutcome.success, TxOutcome.success] =
      ([⟨"a", 1⟩, ⟨"b", 1⟩, ⟨"c", 1⟩, ⟨"d", 1⟩,
        ⟨"e", 1⟩, ⟨"f", 1⟩, ⟨"g", 1⟩, ⟨"h", 1⟩], []) ∧
    Banana.shrinkGroupSize 8 ≤ 4) :=
  ⟨by decide,
    batched_shrink_no_loss ⟨"a", 1⟩ ⟨"b", 1⟩ ⟨"c", 1⟩ ⟨"d", 1⟩ ⟨"e", 1⟩
      ⟨"f", 1⟩ ⟨"g", 1⟩ ⟨"h", 1⟩ (by decide) (by decide) (by decide)
      (by decide) (by decide) (by decide) (by decide) (by decide)⟩

/-- C3 counterexample: the claim quantifies over *every* prior OPS state,
but if the prior state's `lastAirdrop` already records the posted cycle id,
the first POST is itself deduplicated: posting the result (cycle `"c1"`,
`totalSentUi = 5`) twice onto a prior state whose `lastAirdrop` carries
cycle `"c1"` leaves the cumulative total at `0` instead of increasing it by
`5` exactly once. -/
theorem postOps_idempotent_counterexample :
    (Banana.postOps (Banana.postOps
        ⟨none, none, some ⟨"t0", 2, none, some "c1"⟩, 0⟩
        none none (some ⟨"t1", 5, none, some "c1"⟩))
        none none (some ⟨"t1", 5, none, some "c1"⟩)).totalAirdroppedUi = 0 ∧
    ((0 : Rat) ≠ 0 + 5) := by
  constructor
  · decide
  · norm_num

/-- C3 (amended): for every prior OPS state whose `lastAirdrop` does *not*
already record the posted (non-empty) cycle id, POSTing an airdrop result
and then POSTing it again increases `OPS.totalAirdroppedUi` by its
`totalSentUi` exactly once; the second, deduplicated publish leaves the
cumulative total unchanged. -/
theorem postOps_idempotent_crediting (ops : OpsState) (a : AirdropRef)
    (c : String) (hc : a.cycleId = some c) (hne : c ≠ "")
    (hfresh : alreadyCounted ops a = false) :
    (postOps (postOps ops none none (some a)) none none
        (some a)).totalAirdroppedUi
      = ops.totalAirdroppedUi + a.totalSentUi ∧
    (postOps (postOps ops none none (some a)) none none
        (some a)).totalAirdroppedUi
      = (postOps ops none none (some a)).totalAirdroppedUi := by
  have hpost : ∀ o : OpsState, postOps o none none (some a) = postLastAirdrop o a :=
    fun _ => rfl
  have htot : ∀ o : OpsState, (postLastAirdrop o a).totalAirdroppedUi =
      if alreadyCounted o a then o.totalAirdroppedUi
      else o.totalAirdroppedUi + a.totalSentUi := fun _ => rfl
  have hsecond : alreadyCounted (postLastAirdrop ops a) a = true := by
    simp [alreadyCounted, postLastAirdrop, hc, hne]
  constructor
  · rw [hpost, hpost, htot, hsecond, if_pos rfl, htot, hfresh,
      if_neg (by decide : ¬(false = true))]
  · rw [hpost, hpost, htot, hsecond, if_pos rfl]

/-- Witness for the amended C3: fresh prior state, cycle `"c2"`. -/
theorem postOps_idempotent_crediting_witness :
    ((⟨"t1", 5, none, some "c2"⟩ : AirdropRef).cycleId = some "c2") ∧
    ("c2" ≠ "") ∧
    (Banana.alreadyCounted ⟨none, none, some ⟨"t0", 2, none, some "c1"⟩, 7⟩
      ⟨"t1", 5, none, some "c2"⟩ = false) ∧
    ((Banana.postOps (Banana.postOps
        ⟨none, none, some ⟨"t0", 2, none, some "c1"⟩, 7⟩
        none none (some ⟨"t1", 5, none, some "c2"⟩)) none none
        (some ⟨"t1", 5, none, some "c2"⟩)).totalAirdroppedUi
      = (7 : Rat) + 5 ∧
    (Banana.postOps (Banana.postOps
        ⟨none, none, some ⟨"t0", 2, none, some "c1"⟩, 7⟩
        none none (some ⟨"t1", 5, none, some "c2"⟩)) none none
        (some ⟨"t1", 5, none, some "c2"⟩)).totalAirdroppedUi
      = (Banana.postOps ⟨none, none, some ⟨"t0", 2, none, some "c1"⟩, 7⟩
        none none (some ⟨"t1", 5, none, some "c2"⟩)).totalAirdroppedUi) :=
  ⟨rfl, by decide,
    by decide,
    postOps_idempotent_crediting
      ⟨none, none, some ⟨"t0", 2, none, some "c1"⟩, 7⟩
      ⟨"t1", 5, none, some "c2"⟩ "c2" rfl (by decide) (by decide)⟩

/-! ## Scheduler lemmas -/

theorem floorCycleStart_mono {s t : Nat} (h : s ≤ t) :
    floorCycleStart s ≤ floorCycleStart t :=
  Nat.mul_le_mul_right _ (Nat.div_le_div_right h)

theorem floorCycleStart_add_width_le {t0 t1 : Nat}
    (h : floorCycleStart t0 + 60000 ≤ t1) :
    floorCycleStart t0 + 60000 ≤ floorCycleStart t1 := by
  have hfix : floorCycleStart (floorCycleStart t0 + 60000)
      = floorCycleStart t0 + 60000 := by
    unfold floorCycleStart cycleWidth
    omega
  calc floorCycleStart t0 + 60000
      = floorCycleStart (floorCycleStart t0 + 60000) := hfix.symm
    _ ≤ floorCycleStart t1 := floorCycleStart_mono h

theorem loopTick_events_nodup (fired : List FiredKey) (t0 t1 : Nat) :
    (loopTick fired t0 t1).2.Nodup := by
  simp only [loopTick]
  split_ifs <;> simp

theorem loopTick_events_mem (fired : List FiredKey) (t0 t1 : Nat)
    (e : FiredKey) (he : e ∈ (loopTick fired t0 t1).2) :
    e.1 = floorCycleStart t0 ∧ e ∉ fired := by
  simp only [loopTick] at he
  rw [List.mem_append, List.mem_append] at he
  rcases he with (he | he) | he <;>
  · split_ifs at he with h
    · rw [List.mem_singleton] at he
      subst he
      exact ⟨rfl, h.1⟩
    · exact absurd he (List.not_mem_nil e)

theorem loopTick_fired_eq (fired : List FiredKey) (t0 t1 : Nat) :
    (loopTick fired t0 t1).1 =
      if floorCycleStart t0 + 60000 ≤ t1 then []
      else fired ++ (loopTick fired t0 t1).2 := rfl

theorem loopRun_cons (fired : List FiredKey) (t0 t1 : Nat)
    (ticks : List (Nat × Nat)) :
    (loopRun fired ((t0, t1) :: ticks)).2 =
      (loopTick fired t0 t1).2 ++
        (loopRun (loopTick fired t0 t1).1 ticks).2 := rfl

theorem loopRun_spec (ticks : List (Nat × Nat)) :
    ∀ (fired : List FiredKey) (t : Nat),
    TicksMonotone t ticks →
    (∀ e ∈ fired, e.1 ≤ floorCycleStart t) →
    (loopRun fired ticks).2.Nodup ∧
    ∀ e ∈ (loopRun fired ticks).2, e ∉ fired ∧ floorCycleStart t ≤ e.1 := by
  induction ticks with
  | nil => intro fired t _ _; simp [loopRun]
  | cons p ticks ih =>
    obtain ⟨t0, t1⟩ := p
    intro fired t hmono hfired
    obtain ⟨ht0, ht01, hrest⟩ := hmono
    set ev := (loopTick fired t0 t1).2 with hev
    set fired1 := (loopTick fired t0 t1).1 with hfired1
    have hfired1_bound : ∀ e ∈ fired1, e.1 ≤ floorCycleStart t1 := by
      intro e he
      rw [hfired1, loopTick_fired_eq] at he
      split_ifs at he with hclear
      · exact absurd he (List.not_mem_nil e)
      · rw [List.mem_append] at he
        rcases he with he | he
        · calc e.1 ≤ floorCycleStart t := hfired e he
            _ ≤ floorCycleStart t1 := floorCycleStart_mono (le_trans ht0 ht01)
        · rw [(loopTick_events_mem fired t0 t1 e he).1]
          exact floorCycleStart_mono ht01
    obtain ⟨hnodup2, hspec2⟩ := ih fired1 t1 hrest hfired1_bound
    have hev_spec := loopTick_events_mem fired t0 t1
    have hdisj : ev.Disjoint (loopRun fired1 ticks).2 := by
      intro e he1 he2
      obtain ⟨hid, _⟩ := hev_spec e he1
      obtain ⟨hnotin1, hge⟩ := hspec2 e he2
      rw [hfired1, loopTick_fired_eq] at hnotin1
      split_ifs at hnotin1 with hclear
      · have := floorCycleStart_add_width_le hclear
        omega
      · exact hnotin1 (List.mem_append_right fired he1)
    refine ⟨?_, ?_⟩
    · rw [loopRun_cons]
      exact (loopTick_events_nodup fired t0 t1).append hnodup2 hdisj
    · intro e he
      rw [loopRun_cons, List.mem_append] at he
      rcases he with he | he
      · obtain ⟨hid, hnotin⟩ := hev_spec e he
        refine ⟨hnotin, ?_⟩
        rw [hid]
        exact floorCycleStart_mono ht0
      · obtain ⟨hnotin1, hge⟩ := hspec2 e he
        have hge' : floorCycleStart t ≤ e.1 :=
          le_trans (floorCycleStart_mono (le_trans ht0 ht01)) hge
        refine ⟨?_, hge'⟩
        intro hin
        rw [hfired1, loopTick_fired_eq] at hnotin1
        split_ifs at hnotin1 with hclear
        · have h1 := floorCycleStart_add_width_le hclear
          have h2 := hfired e hin
          have h3 := floorCycleStart_mono ht0
          omega
        · exact hnotin1 (List.mem_append_left _ hin)

/-- C6: Each stage fires at most once per cycle id.  For every well-formed
execution of the scheduler loop (monotone tick timestamps, starting from the
empty fired-set of `loop`), the trace of stage invocations contains no
duplicate `(cycleId, stage)` key: once a stage's key is added to the
fired-set for a cycle id, that stage is never invoked again for that cycle
id; by construction (`loopTick`), the fired-set is cleared exactly when the
tick's `now` has reached the window end, after which only later cycle ids
can occur. -/
theorem loop_stage_at_most_once_per_cycle (ticks : List (Nat × Nat))
    (hmono : TicksMonotone 0 ticks) :
    (loopRun [] ticks).2.Nodup :=
  (loopRun_spec ticks [] 0 hmono (by simp)).1

/-- Witness for C6: a delayed third tick fires claim, swap and dist
back-to-back, then the window rolls over; no key repeats. -/
theorem loop_stage_at_most_once_per_cycle_witness :
    TicksMonotone 0 [(5, 10), (30100, 30200), (58000, 61000), (61500, 61600)] ∧
    (Banana.loopRun []
      [(5, 10), (30100, 30200), (58000, 61000), (61500, 61600)]).2.Nodup :=
  ⟨by simp [Banana.TicksMonotone],
    loop_stage_at_most_once_per_cycle
      [(5, 10), (30100, 30200), (58000, 61000), (61500, 61600)]
      (by simp [Banana.TicksMonotone])⟩

/-- C7: Late ticks fire all overdue stages in order.  In a 60-second window
with offsets 0s/30s/55s, a tick observing 58 seconds into the window, when
the claim stage has fired but neither the 30s swap stage nor the 55s
distribute stage has fired for the current cycle id, fires both remaining
stages in that single tick, in offset order — swap before distribute —
skipping neither. -/
theorem loopTick_late_fires_overdue (k : Nat) (fired : List FiredKey)
    (hclaim : (60000 * k, Stage.claim) ∈ fired)
    (hswap : (60000 * k, Stage.swap) ∉ fired)
    (hdist : (60000 * k, Stage.dist) ∉ fired) :
    (loopTick fired (60000 * k + 58000) (60000 * k + 58000)).2 =
      [(60000 * k, Stage.swap), (60000 * k, Stage.dist)] := by
  have hid : floorCycleStart (60000 * k + 58000) = 60000 * k := by
    unfold floorCycleStart cycleWidth
    omega
  have h30 : 60000 * k + 30000 ≤ 60000 * k + 58000 := by omega
  have h55 : 60000 * k + 55000 ≤ 60000 * k + 58000 := by omega
  simp [loopTick, hid, hclaim, hswap, hdist, h30, h55]

/-- Witness for C7 in the second cycle window. -/
theorem loopTick_late_fires_overdue_witness :
    ((60000 * 1, Banana.Stage.claim) ∈
        ([(60000, Banana.Stage.claim)] : List Banana.FiredKey)) ∧
    ((60000 * 1, Banana.Stage.swap) ∉
        ([(60000, Banana.Stage.claim)] : List Banana.FiredKey)) ∧
    ((60000 * 1, Banana.Stage.dist) ∉
        ([(60000, Banana.Stage.claim)] : List Banana.FiredKey)) ∧
    (Banana.loopTick [(60000, Banana.Stage.claim)]
        (60000 * 1 + 58000) (60000 * 1 + 58000)).2 =
      [(60000 * 1, Banana.Stage.swap), (60000 * 1, Banana.Stage.dist)] :=
  ⟨by decide, by decide, by decide,
    loopTick_late_fires_overdue 1 [(60000, Banana.Stage.claim)]
      (by decide) (by decide) (by decide)⟩

/-! ## Monotonicity infrastructure: where a fixed wallet's share ends up -/

theorem sumBaseTo_cons (w : String) (s : Share) (l : List Share) :
    sumBaseTo w (s :: l) =
      (if s.wallet = w then s.base else 0) + sumBaseTo w l := by
  simp only [sumBaseTo, List.filter_cons]
  by_cases h : s.wallet = w
  · simp [h]
  · simp [h]

theorem sumBaseTo_of_not_mem (w : String) (l : List Share)
    (hw : ∀ s ∈ l, s.wallet ≠ w) : sumBaseTo w l = 0 := by
  induction l with
  | nil => rfl
  | cons s ss ih =>
    rw [sumBaseTo_cons, if_neg (hw s (List.mem_cons_self s ss)),
      ih (fun t ht => hw t (List.mem_cons_of_mem s ht))]

theorem sumBaseTo_topUp_of_not_mem (w : String) (d : Nat) (l : List Share)
    (hw : ∀ s ∈ l, s.wallet ≠ w) : sumBaseTo w (topUp d l) = 0 := by
  induction d generalizing l with
  | zero =>
    simp only [topUp]
    exact sumBaseTo_of_not_mem w l hw
  | succ a ih =>
    cases l with
    | nil => rfl
    | cons s ss =>
      simp only [topUp]
      rw [sumBaseTo_cons]
      rw [if_neg (hw s (List.mem_cons_self s ss))]
      rw [ih ss (fun t ht => hw t (List.mem_cons_of_mem s ht))]

theorem sumBaseTo_split (w : String) (e : Share) (hw : e.wallet = w)
    (A B : List Share) (hA : ∀ s ∈ A, s.wallet ≠ w)
    (hB : ∀ s ∈ B, s.wallet ≠ w) :
    sumBaseTo w (A ++ e :: B) = e.base := by
  induction A with
  | nil =>
    rw [List.nil_append, sumBaseTo_cons, if_pos hw,
      sumBaseTo_of_not_mem w B hB]
    omega
  | cons a A ih =>
    rw [List.cons_append, sumBaseTo_cons,
      if_neg (hA a (List.mem_cons_self a A))]
    rw [ih (fun s hs => hA s (List.mem_cons_of_mem a hs))]
    omega

theorem sumBaseTo_topUp_split (w : String) (e : Share) (hw : e.wallet = w) :
    ∀ (A : List Share) (d : Nat) (B : List Share),
    (∀ s ∈ A, s.wallet ≠ w) → (∀ s ∈ B, s.wallet ≠ w) →
    sumBaseTo w (topUp d (A ++ e :: B)) =
      e.base + (if A.length < d then 1 else 0) := by
  intro A
  induction A with
  | nil =>
    intro d B hA hB
    cases d with
    | zero =>
      simp only [topUp, List.nil_append, List.length_nil]
      rw [sumBaseTo_cons, if_pos hw, sumBaseTo_of_not_mem w B hB]
      simp
    | succ a =>
      simp only [List.nil_append, topUp, List.length_nil]
      rw [sumBaseTo_cons, if_pos hw, sumBaseTo_topUp_of_not_mem w a B hB]
      simp
  | cons x A ih =>
    intro d B hA hB
    have hx : x.wallet ≠ w := hA x (List.mem_cons_self x A)
    have hA' : ∀ s ∈ A, s.wallet ≠ w :=
      fun s hs => hA s (List.mem_cons_of_mem x hs)
    cases d with
    | zero =>
      simp only [topUp, List.cons_append, List.append_eq]
      rw [sumBaseTo_cons, if_neg hx, sumBaseTo_split w e hw A B hA' hB]
      simp
    | succ a =>
      simp only [List.cons_append, topUp, List.append_eq]
      rw [sumBaseTo_cons, if_neg hx, ih a B hA' hB]
      simp only [List.length_cons]
      by_cases h : A.length < a
      · rw [if_pos h, if_pos (by omega : A.length + 1 < a + 1)]
        omega
      · rw [if_neg h, if_neg (by omega : ¬A.length + 1 < a + 1)]
        omega

theorem insertByRemDesc_pairwise (s : Share) (L : List Share)
    (h : L.Pairwise (fun x y => y.rem ≤ x.rem)) :
    (insertByRemDesc s L).Pairwise (fun x y => y.rem ≤ x.rem) := by
  induction L with
  | nil => simp [insertByRemDesc]
  | cons y L ih =>
    rw [insertByRemDesc]
    obtain ⟨hy, hL⟩ := List.pairwise_cons.mp h
    by_cases hc : y.rem ≤ s.rem
    · rw [if_pos hc]
      refine List.pairwise_cons.mpr ⟨?_, h⟩
      intro z hz
      rcases List.mem_cons.mp hz with hz | hz
      · subst hz; exact hc
      · exact le_trans (hy z hz) hc
    · rw [if_neg hc]
      refine List.pairwise_cons.mpr ⟨?_, ih hL⟩
      intro z hz
      have hz' := (insertByRemDesc_perm s L).mem_iff.mp hz
      rcases List.mem_cons.mp hz' with hz' | hz'
      · subst hz'; omega
      · exact hy z hz'

theorem sortByRemDesc_pairwise (l : List Share) :
    (sortByRemDesc l).Pairwise (fun x y => y.rem ≤ x.rem) := by
  induction l with
  | nil => simp [sortByRemDesc]
  | cons s ss ih => exact insertByRemDesc_pairwise s (sortByRemDesc ss) ih

theorem insertByRemDesc_split_self (e : Share) (L : List Share)
    (hL : L.Pairwise (fun x y => y.rem ≤ x.rem)) :
    ∃ A B, insertByRemDesc e L = A ++ e :: B ∧ A ++ B = L ∧
      A.length = L.countP (fun s => decide (e.rem < s.rem)) := by
  induction L with
  | nil => exact ⟨[], [], rfl, rfl, rfl⟩
  | cons y L ih =>
    rw [insertByRemDesc]
    obtain ⟨hy, hL'⟩ := List.pairwise_cons.mp hL
    by_cases hc : y.rem ≤ e.rem
    · rw [if_pos hc]
      refine ⟨[], y :: L, rfl, rfl, ?_⟩
      have hzero : List.countP (fun s => decide (e.rem < s.rem)) (y :: L) = 0 := by
        rw [List.countP_eq_zero]
        intro z hz
        rcases List.mem_cons.mp hz with hz | hz
        · subst hz; simpa using by omega
        · have := hy z hz
          simpa using by omega
      simp [hzero]
    · rw [if_neg hc]
      obtain ⟨A, B, h1, h2, h3⟩ := ih hL'
      refine ⟨y :: A, B, by rw [List.cons_append, h1], by rw [List.cons_append, h2], ?_⟩
      rw [List.length_cons, List.countP_cons, h3]
      have : e.rem < y.rem := by omega
      simp [this]

theorem insertByRemDesc_split_other (a e : Share) :
    ∀ (C : List Share) (D : List Share),
    (C ++ e :: D).Pairwise (fun x y => y.rem ≤ x.rem) →
    ∃ C' D', insertByRemDesc a (C ++ e :: D) = C' ++ e :: D' ∧
      (C' ++ D').Perm (a :: (C ++ D)) ∧
      C'.length = C.length + (if e.rem ≤ a.rem then 1 else 0) := by
  intro C
  induction C with
  | nil =>
    intro D hsorted
    rw [List.nil_append, insertByRemDesc]
    by_cases hc : e.rem ≤ a.rem
    · rw [if_pos hc]
      exact ⟨[a], D, rfl, List.Perm.refl _, by simp [hc]⟩
    · rw [if_neg (by omega : ¬e.rem ≤ a.rem)]
      refine ⟨[], insertByRemDesc a D, rfl, ?_, by simp [hc]⟩
      simpa using insertByRemDesc_perm a D
  | cons y C ih =>
    intro D hsorted
    obtain ⟨hy, hrest⟩ := List.pairwise_cons.mp (List.cons_append y C (e :: D) ▸ hsorted)
    rw [List.cons_append, insertByRemDesc]
    by_cases hc : y.rem ≤ a.rem
    · rw [if_pos hc]
      have he : e.rem ≤ y.rem := hy e (by simp)
      refine ⟨a :: y :: C, D, rfl, List.Perm.refl _, ?_⟩
      rw [if_pos (le_trans he hc)]
      simp
    · rw [if_neg hc]
      obtain ⟨C', D', h1, h2, h3⟩ := ih D hrest
      refine ⟨y :: C', D', by rw [List.cons_append, h1], ?_, ?_⟩
      · exact (h2.cons y).trans (List.Perm.swap a y (C ++ D))
      · rw [List.length_cons, h3, List.length_cons]
        omega

theorem sortByRemDesc_split (e : Share) :
    ∀ (A B : List Share),
    ∃ A' B', sortByRemDesc (A ++ e :: B) = A' ++ e :: B' ∧
      (A' ++ B').Perm (A ++ B) ∧
      A'.length = A.countP (fun s => decide (e.rem ≤ s.rem)) +
        B.countP (fun s => decide (e.rem < s.rem)) := by
  intro A
  induction A with
  | nil =>
    intro B
    rw [List.nil_append]
    obtain ⟨A', B', h1, h2, h3⟩ :=
      insertByRemDesc_split_self e (sortByRemDesc B) (sortByRemDesc_pairwise B)
    refine ⟨A', B', ?_, ?_, ?_⟩
    · rw [sortByRemDesc]
      exact h1
    · rw [List.nil_append, h2]
      exact sortByRemDesc_perm B
    · rw [h3, (sortByRemDesc_perm B).countP_eq]
      simp
  | cons x A ih =>
    intro B
    obtain ⟨A2, B2, h1, h2, h3⟩ := ih B
    have hsorted : (A2 ++ e :: B2).Pairwise (fun x y => y.rem ≤ x.rem) :=
      h1 ▸ sortByRemDesc_pairwise (A ++ e :: B)
    obtain ⟨C', D', g1, g2, g3⟩ :=
      insertByRemDesc_split_other x e A2 B2 hsorted
    refine ⟨C', D', ?_, ?_, ?_⟩
    · rw [List.cons_append, sortByRemDesc, h1]
      exact g1
    · refine g2.trans ?_
      rw [List.cons_append]
      exact h2.cons x
    · rw [g3, h3, List.countP_cons]
      by_cases hc : e.rem ≤ x.rem
      · simp [hc]
        omega
      · simp [hc]

theorem amountTo_cons (r : AirdropRowBase) (l : List AirdropRowBase)
    (w : String) :
    amountTo (r :: l) w =
      (if r.wallet = w then r.amountBase else 0) + amountTo l w := by
  simp only [amountTo, List.filter_cons]
  by_cases h : r.wallet = w
  · simp [h]
  · simp [h]

theorem amountTo_output (L : List Share) (w : String) :
    amountTo ((L.filter (fun s => 0 < s.base)).map
      (fun s => ({ wallet := s.wallet, amountBase := s.base } : AirdropRowBase)))
      w = sumBaseTo w L := by
  induction L with
  | nil => rfl
  | cons s ss ih =>
    rw [sumBaseTo_cons, List.filter_cons]
    by_cases hb : 0 < s.base
    · rw [if_pos (by simpa using hb), List.map_cons, amountTo_cons, ih]
    · rw [if_neg (by simpa using hb), ih]
      have hb0 : s.base = 0 := by omega
      by_cases hw : s.wallet = w
      · rw [if_pos hw, hb0]
        omega
      · rw [if_neg hw]
        omega

theorem amountTo_allocate_split (P : Nat) (w : String) (a : Nat)
    (HA HB : List Holder) (T S : Nat)
    (hT : T = ((HA ++ (⟨w, a⟩ : Holder) :: HB).map (·.amountBase)).sum)
    (hS : S = ((HA ++ (⟨w, a⟩ : Holder) :: HB).map
      (fun h => P * h.amountBase / T)).sum)
    (hfA : ∀ h ∈ HA, h.wallet ≠ w) (hfB : ∀ h ∈ HB, h.wallet ≠ w) :
    amountTo (allocate P (HA ++ (⟨w, a⟩ : Holder) :: HB)) w =
      P * a / T +
      (if HA.countP (fun h => decide (P * a % T ≤ P * h.amountBase % T)) +
          HB.countP (fun h => decide (P * a % T < P * h.amountBase % T)) <
          P - S
       then 1 else 0) := by
  simp only [allocate]
  rw [← hT]
  set f : Holder → Share := fun h =>
    { wallet := h.wallet
      base := P * h.amountBase / T
      rem := P * h.amountBase % T } with hf
  set ej : Share := { wallet := w, base := P * a / T, rem := P * a % T }
    with hej
  have hsplit : (HA ++ (⟨w, a⟩ : Holder) :: HB).map f =
      HA.map f ++ ej :: HB.map f := by
    rw [List.map_append, List.map_cons]
  have hshsum : (((HA ++ (⟨w, a⟩ : Holder) :: HB).map f).map (·.base)).sum = S := by
    rw [List.map_map, hS]
    rfl
  have hfA' : ∀ s ∈ HA.map f, s.wallet ≠ w := by
    intro s hs
    obtain ⟨h, hh, rfl⟩ := List.mem_map.mp hs
    exact hfA h hh
  have hfB' : ∀ s ∈ HB.map f, s.wallet ≠ w := by
    intro s hs
    obtain ⟨h, hh, rfl⟩ := List.mem_map.mp hs
    exact hfB h hh
  rw [amountTo_output, hshsum]
  by_cases hlt : S < P
  · rw [if_pos hlt, hsplit]
    obtain ⟨A', B', e1, e2, e3⟩ :=
      sortByRemDesc_split ej (HA.map f) (HB.map f)
    rw [e1]
    have hwallA : ∀ s ∈ A', s.wallet ≠ w := by
      intro s hs
      have hmem := e2.mem_iff.mp (List.mem_append_left B' hs)
      rcases List.mem_append.mp hmem with hmem | hmem
      · exact hfA' s hmem
      · exact hfB' s hmem
    have hwallB : ∀ s ∈ B', s.wallet ≠ w := by
      intro s hs
      have hmem := e2.mem_iff.mp (List.mem_append_right A' hs)
      rcases List.mem_append.mp hmem with hmem | hmem
      · exact hfA' s hmem
      · exact hfB' s hmem
    rw [sumBaseTo_topUp_split w ej rfl A' (P - S) B' hwallA hwallB]
    rw [List.countP_map, List.countP_map] at e3
    rw [e3]
    rfl
  · rw [if_neg hlt, hsplit]
    rw [sumBaseTo_split w ej rfl (HA.map f) (HB.map f) hfA' hfB']
    have hPS : P - S = 0 := by omega
    rw [hPS]
    simp

theorem div_le_div_cross {p q b d : Nat} (h : p * d ≤ q * b) (hb : 0 < b)
    (hd : 0 < d) : p / b ≤ q / d := by
  rw [Nat.le_div_iff_mul_le hd]
  have h1 : p / b * b ≤ p := Nat.div_mul_le_self p b
  have h2 : p / b * b * d ≤ p * d := Nat.mul_le_mul_right d h1
  have h3 : p / b * d * b = p / b * b * d := by ring
  exact Nat.le_of_mul_le_mul_right (by omega) hb

theorem sum_floor_le (P T : Nat) (ws : List Nat) (hT : 0 < T)
    (hsum : ws.sum = T) : (ws.map (fun v => P * v / T)).sum ≤ P := by
  have h := sum_div_add_sum_mod P T ws
  rw [hsum] at h
  have hcomm : P * T = T * P := Nat.mul_comm P T
  exact Nat.le_of_mul_le_mul_left (by omega) hT

theorem countP_add_sum_le (l : List Holder) (p p' : Holder → Bool)
    (g g' : Holder → Nat)
    (hpt : ∀ h ∈ l, (if p' h then 1 else 0) + g' h ≤
      (if p h then 1 else 0) + g h) :
    l.countP p' + (l.map g').sum ≤ l.countP p + (l.map g).sum := by
  induction l with
  | nil => simp
  | cons x l ih =>
    have hx := hpt x (List.mem_cons_self x l)
    have hl := ih (fun h hh => hpt h (List.mem_cons_of_mem x hh))
    rw [List.countP_cons, List.countP_cons, List.map_cons, List.map_cons,
      List.sum_cons, List.sum_cons]
    by_cases h1 : p x <;> by_cases h2 : p' x <;>
      simp only [h1, h2, if_true, if_false] at hx ⊢ <;> omega

theorem seat_indicator_bound (P T T' rj rj' v : Nat)
    (hTle : T ≤ T') (hT0 : 0 < T) (hrj : rj ≤ rj') :
    ((if rj' ≤ P * v % T' then 1 else 0) + P * v / T' ≤
      (if rj ≤ P * v % T then 1 else 0) + P * v / T) ∧
    ((if rj' < P * v % T' then 1 else 0) + P * v / T' ≤
      (if rj < P * v % T then 1 else 0) + P * v / T) := by
  have hbb : P * v / T' ≤ P * v / T := Nat.div_le_div_left hTle hT0
  have hd1 : T * (P * v / T) + P * v % T = P * v := Nat.div_add_mod _ _
  have hd2 : T' * (P * v / T') + P * v % T' = P * v := Nat.div_add_mod _ _
  by_cases hbe : P * v / T' = P * v / T
  · have hT'd : T' = T + (T' - T) := by omega
    have he : (T + (T' - T)) * (P * v / T) =
        T * (P * v / T) + (T' - T) * (P * v / T) := by ring
    have he2 : T' * (P * v / T') = (T + (T' - T)) * (P * v / T) := by
      rw [hbe, ← hT'd]
    have he3 : T' * (P * v / T') =
        T * (P * v / T) + (T' - T) * (P * v / T) := he2.trans he
    constructor <;> split_ifs <;> omega
  · have hlt : P * v / T' < P * v / T := by omega
    constructor <;> split_ifs <;> omega


/-- C5: Monotonicity of the allocation.  For every pool `P` and every two
weight lists identical except that one recipient's weight is strictly
increased (all others fixed, total weight positive as the code guards),
that recipient's allocated amount under the largest-remainder allocation
never decreases. -/
theorem allocate_weight_monotone (P : Nat) (w : String) (a a' : Nat)
    (HA HB : List Holder) (hinc : a < a')
    (hfA : ∀ h ∈ HA, h.wallet ≠ w) (hfB : ∀ h ∈ HB, h.wallet ≠ w)
    (hT0 : 0 < ((HA ++ (⟨w, a⟩ : Holder) :: HB).map (·.amountBase)).sum) :
    amountTo (allocate P (HA ++ (⟨w, a⟩ : Holder) :: HB)) w ≤
      amountTo (allocate P (HA ++ (⟨w, a'⟩ : Holder) :: HB)) w := by
  obtain ⟨δ, hδpos, ha'⟩ : ∃ δ, 0 < δ ∧ a' = a + δ :=
    ⟨a' - a, by omega, by omega⟩
  subst ha'
  rw [amountTo_allocate_split P w a HA HB _ _ rfl rfl hfA hfB,
    amountTo_allocate_split P w (a + δ) HA HB _ _ rfl rfl hfA hfB]
  set T := ((HA ++ (⟨w, a⟩ : Holder) :: HB).map (·.amountBase)).sum with hTdef
  have hTdec : T = (HA.map (·.amountBase)).sum +
      (a + (HB.map (·.amountBase)).sum) := by
    rw [hTdef]
    simp [List.map_append, List.sum_append]
  have haT : a ≤ T := by omega
  have hT'eq : ((HA ++ (⟨w, a + δ⟩ : Holder) :: HB).map (·.amountBase)).sum
      = T + δ := by
    simp only [List.map_append, List.map_cons, List.sum_append, List.sum_cons]
    omega
  rw [hT'eq]
  have hbj_le : P * a / T ≤ P * (a + δ) / (T + δ) := by
    have e1 : P * a * (T + δ) = P * a * T + P * a * δ := by ring
    have e2 : P * (a + δ) * T = P * a * T + P * δ * T := by ring
    have e3 : P * a * δ ≤ P * δ * T := by
      calc P * a * δ = P * δ * a := by ring
        _ ≤ P * δ * T := Nat.mul_le_mul_left _ haT
    exact div_le_div_cross (by omega) hT0 (by omega)
  have hSP : ((HA ++ (⟨w, a⟩ : Holder) :: HB).map
      (fun h => P * h.amountBase / T)).sum ≤ P := by
    have hconv : (HA ++ (⟨w, a⟩ : Holder) :: HB).map
        (fun h => P * h.amountBase / T) =
        ((HA ++ (⟨w, a⟩ : Holder) :: HB).map (·.amountBase)).map
          (fun v => P * v / T) := by
      rw [List.map_map]
      rfl
    rw [hconv]
    exact sum_floor_le P T _ hT0 hTdef.symm
  have hS'P : ((HA ++ (⟨w, a + δ⟩ : Holder) :: HB).map
      (fun h => P * h.amountBase / (T + δ))).sum ≤ P := by
    have hconv : (HA ++ (⟨w, a + δ⟩ : Holder) :: HB).map
        (fun h => P * h.amountBase / (T + δ)) =
        ((HA ++ (⟨w, a + δ⟩ : Holder) :: HB).map (·.amountBase)).map
          (fun v => P * v / (T + δ)) := by
      rw [List.map_map]
      rfl
    rw [hconv]
    exact sum_floor_le P (T + δ) _ (by omega) hT'eq
  simp only [List.map_append, List.map_cons, List.sum_append, List.sum_cons]
    at hSP hS'P ⊢
  by_cases hbb : P * (a + δ) / (T + δ) = P * a / T
  · -- the increased recipient keeps its floor share; compare remainder seats
    have hbjP : P * a / T ≤ P := by
      have h1 : P * a / T ≤ P * T / T :=
        Nat.div_le_div_right (Nat.mul_le_mul_left P haT)
      rwa [Nat.mul_div_cancel _ hT0] at h1
    have hd1 : T * (P * a / T) + P * a % T = P * a := Nat.div_add_mod _ _
    have hd2 : (T + δ) * (P * (a + δ) / (T + δ)) + P * (a + δ) % (T + δ)
        = P * (a + δ) := Nat.div_add_mod _ _
    rw [hbb] at hd2
    have he1 : (T + δ) * (P * a / T) = T * (P * a / T) + δ * (P * a / T) := by
      ring
    have he2 : P * (a + δ) = P * a + P * δ := by ring
    have he3 : δ * (P * a / T) ≤ δ * P := Nat.mul_le_mul_left δ hbjP
    have he4 : P * δ = δ * P := by ring
    have hrr' : P * a % T ≤ P * (a + δ) % (T + δ) := by omega
    have hptA : ∀ h ∈ HA,
        (if (fun h : Holder => decide (P * (a + δ) % (T + δ) ≤
            P * h.amountBase % (T + δ))) h then 1 else 0) +
          (fun h : Holder => P * h.amountBase / (T + δ)) h ≤
        (if (fun h : Holder => decide (P * a % T ≤ P * h.amountBase % T)) h
            then 1 else 0) +
          (fun h : Holder => P * h.amountBase / T) h := by
      intro h _
      have hb := (seat_indicator_bound P T (T + δ) (P * a % T)
        (P * (a + δ) % (T + δ)) h.amountBase (by omega) hT0 hrr').1
      simpa using hb
    have hptB : ∀ h ∈ HB,
        (if (fun h : Holder => decide (P * (a + δ) % (T + δ) <
            P * h.amountBase % (T + δ))) h then 1 else 0) +
          (fun h : Holder => P * h.amountBase / (T + δ)) h ≤
        (if (fun h : Holder => decide (P * a % T < P * h.amountBase % T)) h
            then 1 else 0) +
          (fun h : Holder => P * h.amountBase / T) h := by
      intro h _
      have hb := (seat_indicator_bound P T (T + δ) (P * a % T)
        (P * (a + δ) % (T + δ)) h.amountBase (by omega) hT0 hrr').2
      simpa using hb
    have cntA := countP_add_sum_le HA
      (fun h => decide (P * a % T ≤ P * h.amountBase % T))
      (fun h => decide (P * (a + δ) % (T + δ) ≤ P * h.amountBase % (T + δ)))
      (fun h => P * h.amountBase / T)
      (fun h => P * h.amountBase / (T + δ)) hptA
    have cntB := countP_add_sum_le HB
      (fun h => decide (P * a % T < P * h.amountBase % T))
      (fun h => decide (P * (a + δ) % (T + δ) < P * h.amountBase % (T + δ)))
      (fun h => P * h.amountBase / T)
      (fun h => P * h.amountBase / (T + δ)) hptB
    split_ifs <;> omega
  · have hblt : P * a / T < P * (a + δ) / (T + δ) := by omega
    split_ifs <;> omega

/-- Witness for C5: raising the middle holder's weight from 1 to 2. -/
theorem allocate_weight_monotone_witness :
    (1 : Nat) < 2 ∧
    (∀ h ∈ ([⟨"x", 3⟩] : List Holder), h.wallet ≠ "j") ∧
    (∀ h ∈ ([⟨"y", 5⟩] : List Holder), h.wallet ≠ "j") ∧
    0 < ((([⟨"x", 3⟩] : List Holder) ++
      (⟨"j", 1⟩ : Holder) :: [⟨"y", 5⟩]).map (·.amountBase)).sum ∧
    Banana.amountTo
        (Banana.allocate 10 ([⟨"x", 3⟩] ++ (⟨"j", 1⟩ : Holder) :: [⟨"y", 5⟩]))
        "j" ≤
      Banana.amountTo
        (Banana.allocate 10 ([⟨"x", 3⟩] ++ (⟨"j", 2⟩ : Holder) :: [⟨"y", 5⟩]))
        "j" :=
  ⟨by decide, by decide, by decide, by decide,
    allocate_weight_monotone 10 "j" 1 2 [⟨"x", 3⟩] [⟨"y", 5⟩]
      (by decide) (by decide) (by decide) (by decide)⟩
